import Mathlib

/-
Verification of the music-recommender ranking engine against its
natural-language specification.

The Python source is shallowly embedded:
- machine floats are modelled as exact rationals (ℚ); the one place where
  the mathematics is genuinely irrational (square roots inside cosine
  similarity) is modelled over ℝ;
- Python dicts are modelled as association lists looked up on the first
  matching key (Python dicts have unique keys, so this is faithful);
- database rows (ItemStatistics) are modelled as an explicit
  `Option ItemStats` (none = no row yet), and the UPSERT as a pure update;
- external randomness (numpy Beta draws) and external model calls
  (the FlashRank cross-encoder) are modelled algebraically: the Thompson
  sampler returns which distribution it draws from, and the reranker takes
  the cross-encoder scores as an oracle parameter.
-/

/-! ## Association-list helper (Python dict.get(key, default)) -/

/-- Python `d.get(key, default)` on an int-keyed dict, modelled as lookup of
the first matching key in an association list. -/
def dictGet (l : List (Int × ℚ)) (key : Int) (dflt : ℚ) : ℚ :=
  match l with
  | [] => dflt
  | (k, v) :: rest => if key = k then v else dictGet rest key dflt

/-! ## PositionBiasCorrector (src/app/core/position_bias.py) -/

/-- The corrector state: `propensities` dict, `default_propensity`,
`max_ipw_weight` (constructor of `PositionBiasCorrector`). -/
structure PositionBiasCorrector where
  propensities : List (Int × ℚ)
  default_propensity : ℚ
  max_ipw_weight : ℚ

/-- The class constant `DEFAULT_PROPENSITIES` of position_bias.py. -/
def DEFAULT_PROPENSITIES : List (Int × ℚ) :=
  [(1, 1.00), (2, 0.70), (3, 0.50), (4, 0.35), (5, 0.25), (6, 0.18), (7, 0.13),
   (8, 0.10), (9, 0.08), (10, 0.06), (11, 0.05), (12, 0.04), (13, 0.035),
   (14, 0.03), (15, 0.025), (16, 0.02), (17, 0.018), (18, 0.016), (19, 0.014),
   (20, 0.012)]

/-- A corrector built with the constructor defaults of position_bias.py:
the default table, `default_propensity = 0.01`, `max_ipw_weight = 20.0`. -/
def defaultCorrector : PositionBiasCorrector :=
  { propensities := DEFAULT_PROPENSITIES, default_propensity := 0.01, max_ipw_weight := 20 }

/-- Method `get_propensity`: `self.propensities.get(position, self.default_propensity)`. -/
def PositionBiasCorrector.get_propensity (pc : PositionBiasCorrector) (position : Int) : ℚ :=
  dictGet pc.propensities position pc.default_propensity

/-- Method `compute_ipw_weight`:
`weight = 1.0 / max(propensity, 1e-6); return min(weight, self.max_ipw_weight)`. -/
def PositionBiasCorrector.compute_ipw_weight (pc : PositionBiasCorrector) (position : Int) : ℚ :=
  let propensity := pc.get_propensity position
  let weight := 1 / max propensity 0.000001
  min weight pc.max_ipw_weight

/-- The IPW weight as a function of the propensity value alone; by
definition `compute_ipw_weight pc p = ipwWeightOfPropensity pc (get_propensity pc p)`. -/
def ipwWeightOfPropensity (pc : PositionBiasCorrector) (propensity : ℚ) : ℚ :=
  min (1 / max propensity 0.000001) pc.max_ipw_weight

/-- Python 3 `round` to an int: nearest integer, halves to the even integer. -/
def pythonRound (q : ℚ) : Int :=
  let f : Int := Int.floor q
  let frac : ℚ := q - f
  if frac < 1 / 2 then f
  else if 1 / 2 < frac then f + 1
  else if f % 2 = 0 then f else f + 1

/-- Method `compute_simplified_debiased_ctr` of position_bias.py:
returns 0.5 when impressions == 0, otherwise
`min(1.0, (clicks/impressions) / max(propensity(round(position_sum/impressions)), 0.01))`. -/
def PositionBiasCorrector.compute_simplified_debiased_ctr
    (pc : PositionBiasCorrector) (clicks impressions position_sum : ℕ) : ℚ :=
  if impressions = 0 then 0.5
  else
    let avg_position : ℚ := (position_sum : ℚ) / (impressions : ℚ)
    let avg_propensity := pc.get_propensity (pythonRound avg_position)
    let raw_ctr : ℚ := (clicks : ℚ) / (impressions : ℚ)
    min 1 (raw_ctr / max avg_propensity 0.01)

/-! ## ThompsonSampler (src/app/core/thompson_sampling.py) -/

/-- The value returned by `compute_exploration_score`, kept algebraic because
the non-UCB branch is a numpy random draw: `ucb a b` stands for the
deterministic value `min(1, mean + 2*sqrt(variance))` of the Beta(a, b)
posterior, and `betaDraw a b` stands for a fresh `np.random.beta(a, b)` draw. -/
inductive ExplorationOutcome where
  | ucb (alpha beta : ℚ)
  | betaDraw (alpha beta : ℚ)
  deriving DecidableEq

/-- True exactly when the outcome is the deterministic UCB branch. -/
def ExplorationOutcome.isUcb : ExplorationOutcome → Bool
  | .ucb _ _ => true
  | .betaDraw _ _ => false

/-- Sampler state: the constructor arguments of `ThompsonSampler`. -/
structure ThompsonSampler where
  prior_alpha : ℚ
  prior_beta : ℚ
  exploration_boost : ℚ

/-- Posterior mean `alpha / (alpha + beta)` as computed in the UCB branch. -/
def betaMean (alpha beta : ℚ) : ℚ := alpha / (alpha + beta)

/-- Posterior variance `alpha*beta / ((alpha+beta)^2 * (alpha+beta+1))`
as computed in the UCB branch. -/
def betaVariance (alpha beta : ℚ) : ℚ :=
  alpha * beta / ((alpha + beta) ^ 2 * (alpha + beta + 1))

/-- Method `compute_exploration_score(clicks, impressions, use_ucb)`:
`alpha = prior_alpha + clicks`, `beta = prior_beta + max(impressions - clicks, 0)`;
UCB value when `use_ucb`, otherwise a Beta(alpha, beta) draw. -/
def ThompsonSampler.compute_exploration_score
    (t : ThompsonSampler) (clicks impressions : ℕ) (use_ucb : Bool) : ExplorationOutcome :=
  let alpha := t.prior_alpha + (clicks : ℚ)
  let beta := t.prior_beta + max ((impressions : ℚ) - (clicks : ℚ)) 0
  if use_ucb then ExplorationOutcome.ucb alpha beta
  else ExplorationOutcome.betaDraw alpha beta

/-- The sampler built by `RankingService.__init__` with the configured priors
(`thompson_prior_alpha = 1.0`, `thompson_prior_beta = 1.0` in config.py);
`exploration_boost` keeps its default 0.1. -/
def rankingSampler : ThompsonSampler :=
  { prior_alpha := 1, prior_beta := 1, exploration_boost := 0.1 }

/-- The exploration signal of `RankingService.compute_composite_score`:
`self.thompson_sampler.compute_exploration_score(clicks, impressions,
use_ucb=not use_thompson)`, where `use_thompson` is the method parameter
(default `True`). -/
def rankingExplorationOutcome
    (click_count impression_count : ℕ) (use_thompson : Bool) : ExplorationOutcome :=
  rankingSampler.compute_exploration_score click_count impression_count (!use_thompson)

/-- The exploration signal as computed for each candidate by
`RankingService.rank_candidates`, which calls `compute_composite_score`
without a `use_thompson` argument, leaving it at its default `True`. -/
def rank_candidates_exploration (click_count impression_count : ℕ) : ExplorationOutcome :=
  rankingExplorationOutcome click_count impression_count true

/-! ## FeedbackService.record_interaction (src/app/services/feedback.py) -/

/-- The counter columns of one ItemStatistics row
(src/app/models/item_statistics.py). -/
structure ItemStats where
  impression_count : ℕ
  click_count : ℕ
  like_count : ℕ
  position_sum : ℕ
  deriving DecidableEq

/-- The all-zero counters an absent row is compared against. -/
def zeroStats : ItemStats :=
  { impression_count := 0, click_count := 0, like_count := 0, position_sum := 0 }

/-- feedback.py line 72: `click_increment = 1 if action == "click" else 0`. -/
def click_increment (action : String) : ℕ :=
  if action = "click" then 1 else 0

/-- feedback.py line 73: `like_increment = 1 if action == "like" else 0`. -/
def like_increment (action : String) : ℕ :=
  if action = "like" then 1 else 0

/-- feedback.py line 74:
`impression_increment = 1 if action in ("click", "impression", "skip") else 0`. -/
def impression_increment (action : String) : ℕ :=
  if action = "click" ∨ action = "impression" ∨ action = "skip" then 1 else 0

/-- The ItemStatistics UPSERT of `record_interaction`: on conflict each counter
is incremented by its delta and `position_sum` by `position_shown`; on first
insert the counters start from the deltas themselves. -/
def record_interaction_upsert
    (prev : Option ItemStats) (action : String) (position_shown : ℕ) : ItemStats :=
  match prev with
  | none =>
    { impression_count := impression_increment action
      click_count := click_increment action
      like_count := like_increment action
      position_sum := position_shown }
  | some s =>
    { impression_count := s.impression_count + impression_increment action
      click_count := s.click_count + click_increment action
      like_count := s.like_count + like_increment action
      position_sum := s.position_sum + position_shown }

/-- One recorded interaction `(action, position_shown)` applied to the
(possibly absent) statistics row. -/
def applyEvent (prev : Option ItemStats) (ev : String × ℕ) : Option ItemStats :=
  some (record_interaction_upsert prev ev.1 ev.2)

/-- A sequence of `record_interaction` calls on one item, starting from no
statistics row. -/
def runEvents (events : List (String × ℕ)) : Option ItemStats :=
  events.foldl applyEvent none

/-- The `average_position` property of ItemStatistics:
0.0 when `impression_count == 0`, else `position_sum / impression_count`. -/
def average_position (s : ItemStats) : ℚ :=
  if s.impression_count = 0 then 0
  else (s.position_sum : ℚ) / (s.impression_count : ℚ)

/-! ## Claim C1: per-action counter deltas of record_interaction -/

/-- C1: for every call to record_interaction on an item (with or without an
existing statistics row): a click increments impression_count and click_count
by exactly 1 and leaves like_count unchanged; an impression or a skip
increments only impression_count; a like increments only like_count; a
play_complete changes none of the three counters. -/
theorem record_interaction_counter_deltas (prev : Option ItemStats) (pos : ℕ) :
    ((record_interaction_upsert prev "click" pos).impression_count
        = (prev.getD zeroStats).impression_count + 1
      ∧ (record_interaction_upsert prev "click" pos).click_count
        = (prev.getD zeroStats).click_count + 1
      ∧ (record_interaction_upsert prev "click" pos).like_count
        = (prev.getD zeroStats).like_count)
    ∧ ((record_interaction_upsert prev "impression" pos).impression_count
        = (prev.getD zeroStats).impression_count + 1
      ∧ (record_interaction_upsert prev "impression" pos).click_count
        = (prev.getD zeroStats).click_count
      ∧ (record_interaction_upsert prev "impression" pos).like_count
        = (prev.getD zeroStats).like_count)
    ∧ ((record_interaction_upsert prev "skip" pos).impression_count
        = (prev.getD zeroStats).impression_count + 1
      ∧ (record_interaction_upsert prev "skip" pos).click_count
        = (prev.getD zeroStats).click_count
      ∧ (record_interaction_upsert prev "skip" pos).like_count
        = (prev.getD zeroStats).like_count)
    ∧ ((record_interaction_upsert prev "like" pos).impression_count
        = (prev.getD zeroStats).impression_count
      ∧ (record_interaction_upsert prev "like" pos).click_count
        = (prev.getD zeroStats).click_count
      ∧ (record_interaction_upsert prev "like" pos).like_count
        = (prev.getD zeroStats).like_count + 1)
    ∧ ((record_interaction_upsert prev "play_complete" pos).impression_count
        = (prev.getD zeroStats).impression_count
      ∧ (record_interaction_upsert prev "play_complete" pos).click_count
        = (prev.getD zeroStats).click_count
      ∧ (record_interaction_upsert prev "play_complete" pos).like_count
        = (prev.getD zeroStats).like_count) := by
  cases prev <;>
    simp [record_interaction_upsert, impression_increment, click_increment,
      like_increment, zeroStats]

/-! ## Claim C2: the simplified debiased CTR formula -/

/-- C2: for all natural clicks, impressions, position_sum, the simplified
debiased CTR with the default propensity table is 0.5 when impressions = 0 and
otherwise min(1, (clicks/impressions) / max(propensity(round(position_sum /
impressions)), 0.01)); at clicks=10, impressions=100, position_sum=200 the
value is 0.10/0.7 = 1/7. -/
theorem compute_simplified_debiased_ctr_spec :
    (∀ clicks impressions position_sum : ℕ,
      defaultCorrector.compute_simplified_debiased_ctr clicks impressions position_sum
        = if impressions = 0 then 0.5
          else min 1 (((clicks : ℚ) / (impressions : ℚ))
            / max (defaultCorrector.get_propensity
                (pythonRound ((position_sum : ℚ) / (impressions : ℚ)))) 0.01))
    ∧ defaultCorrector.compute_simplified_debiased_ctr 10 100 200 = 1 / 7 := by
  constructor
  · intro clicks impressions position_sum
    rfl
  · have h200 : ((200 : ℕ) : ℚ) / ((100 : ℕ) : ℚ) = 2 := by norm_num
    have hround : pythonRound (((200 : ℕ) : ℚ) / ((100 : ℕ) : ℚ)) = 2 := by
      rw [h200]
      simp [pythonRound]
    have hprop : defaultCorrector.get_propensity 2 = 0.70 := by
      simp [defaultCorrector, PositionBiasCorrector.get_propensity,
        DEFAULT_PROPENSITIES, dictGet]
    simp only [PositionBiasCorrector.compute_simplified_debiased_ctr, hround, hprop]
    norm_num [max_def, min_def]

/-! ## Claim C3: the exploration signal used by composite scoring -/

/-- C3 counterexample: with the defaults (rank_candidates leaves use_thompson
at True), the exploration signal computed for a candidate with 0 clicks and
0 impressions is a random Beta(1,1) draw, not the UCB score the claim
asserts. -/
theorem rank_candidates_exploration_not_ucb :
    (rank_candidates_exploration 0 0).isUcb = false := rfl

/-- C3 amended: by default (use_thompson = True) the exploration signal of
composite scoring is a fresh Beta draw with alpha = alpha0 + clicks and
beta = beta0 + max(impressions - clicks, 0); the UCB outcome
min(1, mean + 2*sqrt(variance)) is computed only when use_thompson = False. -/
theorem rank_candidates_exploration_is_thompson (clicks impressions : ℕ) :
    rankingExplorationOutcome clicks impressions true
      = ExplorationOutcome.betaDraw (1 + (clicks : ℚ))
          (1 + max ((impressions : ℚ) - (clicks : ℚ)) 0)
    ∧ rankingExplorationOutcome clicks impressions false
      = ExplorationOutcome.ucb (1 + (clicks : ℚ))
          (1 + max ((impressions : ℚ) - (clicks : ℚ)) 0)
    ∧ rank_candidates_exploration clicks impressions
      = rankingExplorationOutcome clicks impressions true := by
  refine ⟨rfl, rfl, rfl⟩

/-! ## Claim C8: IPW weight floor and cap -/

/-- Lower-bounds a dict lookup by a bound on every stored value and on the
default. -/
theorem dictGet_le_of_forall (c : ℚ) (l : List (Int × ℚ)) (key : Int) (dflt : ℚ)
    (hl : ∀ kv ∈ l, c ≤ kv.2) (hd : c ≤ dflt) : c ≤ dictGet l key dflt := by
  induction l with
  | nil => exact hd
  | cons kv rest ih =>
    simp only [dictGet]
    split
    · exact hl kv (List.mem_cons_self kv rest)
    · exact ih (fun p hp => hl p (List.mem_cons_of_mem _ hp))

/-- Every propensity the default corrector can return is at least 0.01. -/
theorem default_propensity_floor (position : Int) :
    1 / 100 ≤ defaultCorrector.get_propensity position := by
  show 1 / 100 ≤ dictGet DEFAULT_PROPENSITIES position (0.01 : ℚ)
  refine dictGet_le_of_forall _ _ _ _ ?_ (by norm_num)
  intro kv hkv
  fin_cases hkv <;> norm_num

/-- C8: with the class defaults (cap W_max = 20, default table, floor 0.01),
the IPW weight of every integer position equals
min(1 / max(propensity(position), 0.01), 20); in particular it never exceeds
20, and as a function of the propensity value it is non-decreasing as the
propensity decreases. -/
theorem compute_ipw_weight_spec :
    (∀ position : Int,
      defaultCorrector.compute_ipw_weight position
        = min (1 / max (defaultCorrector.get_propensity position) (1 / 100)) 20
      ∧ defaultCorrector.compute_ipw_weight position ≤ 20)
    ∧ ∀ x y : ℚ, x ≤ y →
        ipwWeightOfPropensity defaultCorrector y ≤ ipwWeightOfPropensity defaultCorrector x := by
  constructor
  · intro position
    have hfloor := default_propensity_floor position
    constructor
    · show min (1 / max (defaultCorrector.get_propensity position) (0.000001 : ℚ)) 20
        = min (1 / max (defaultCorrector.get_propensity position) (1 / 100)) 20
      rw [max_eq_left (le_trans (by norm_num) hfloor), max_eq_left hfloor]
    · exact min_le_right _ _
  · intro x y hxy
    have hx : (0 : ℚ) < max x 0.000001 := lt_of_lt_of_le (by norm_num) (le_max_right _ _)
    have hmax : max x 0.000001 ≤ max y 0.000001 := max_le_max hxy le_rfl
    exact min_le_min (one_div_le_one_div_of_le hx hmax) le_rfl

/-- C8 witness: the weight-vs-propensity monotonicity at the concrete
propensities 0.1 ≤ 0.5. -/
theorem compute_ipw_weight_spec_witness :
    (1 : ℚ) / 10 ≤ 1 / 2
    ∧ ipwWeightOfPropensity defaultCorrector (1 / 2)
      ≤ ipwWeightOfPropensity defaultCorrector (1 / 10) :=
  ⟨by norm_num, compute_ipw_weight_spec.2 (1 / 10) (1 / 2) (by norm_num)⟩

/-! ## Claim C9: the position-sum law -/

/-- Closed form of a fold of recorded interactions: impression_count grows by
the sum of the per-event impression increments and position_sum by the sum of
the recorded positions. -/
theorem foldl_applyEvent_counts (events : List (String × ℕ)) :
    ∀ st : Option ItemStats,
      ((events.foldl applyEvent st).getD zeroStats).impression_count
        = (st.getD zeroStats).impression_count
          + (events.map (fun e => impression_increment e.1)).sum
      ∧ ((events.foldl applyEvent st).getD zeroStats).position_sum
        = (st.getD zeroStats).position_sum + (events.map Prod.snd).sum := by
  induction events with
  | nil => intro st; simp
  | cons ev rest ih =>
    intro st
    simp only [List.foldl_cons, List.map_cons, List.sum_cons]
    obtain ⟨h1, h2⟩ := ih (applyEvent st ev)
    rw [h1, h2]
    cases st <;>
      (simp [applyEvent, record_interaction_upsert, zeroStats]; try omega)

/-- C9 counterexample: a single like recorded at position 5 gives
position_sum = 5 but average_position = 0 (impression_count stays 0), not
5/1 as the claim would require for K = 1 events. -/
theorem average_position_like_counterexample :
    ((runEvents [("like", 5)]).getD zeroStats).position_sum = 5
    ∧ average_position ((runEvents [("like", 5)]).getD zeroStats) ≠ 5 / 1 := by
  constructor
  · rfl
  · have h : ((runEvents [("like", 5)]).getD zeroStats).impression_count = 0 := rfl
    simp [average_position, h]

/-- When every event is impression-incrementing, the sum of the per-event
impression increments is the number of events. -/
theorem sum_impression_increments (events : List (String × ℕ))
    (hall : ∀ e ∈ events, e.1 = "click" ∨ e.1 = "impression" ∨ e.1 = "skip") :
    (events.map (fun e => impression_increment e.1)).sum = events.length := by
  induction events with
  | nil => rfl
  | cons ev rest ih =>
    simp only [List.map_cons, List.sum_cons, List.length_cons]
    rw [ih (fun e he => hall e (List.mem_cons_of_mem _ he))]
    have hev := hall ev (List.mem_cons_self ev rest)
    simp only [impression_increment, if_pos hev]
    omega

/-- C9 amended: after K recorded events with positions p1..pK on one item
(starting from no row), position_sum is always the sum of the positions; and
when every recorded action is click, impression or skip (the
impression-incrementing actions), average_position = (sum of positions)/K.
A like or play_complete adds its position to position_sum without touching
impression_count, so the original K-denominator claim fails for those. -/
theorem position_sum_law (events : List (String × ℕ)) :
    ((runEvents events).getD zeroStats).position_sum = (events.map Prod.snd).sum
    ∧ ((∀ e ∈ events, e.1 = "click" ∨ e.1 = "impression" ∨ e.1 = "skip") →
        average_position ((runEvents events).getD zeroStats)
          = (((events.map Prod.snd).sum : ℕ) : ℚ) / ((events.length : ℕ) : ℚ)) := by
  obtain ⟨h1, h2⟩ := foldl_applyEvent_counts events none
  constructor
  · simpa [runEvents, zeroStats] using h2
  · intro hall
    have hsum := sum_impression_increments events hall
    have himp : ((runEvents events).getD zeroStats).impression_count = events.length := by
      simpa [runEvents, zeroStats, hsum] using h1
    have hpos : ((runEvents events).getD zeroStats).position_sum
        = (events.map Prod.snd).sum := by
      simpa [runEvents, zeroStats] using h2
    rcases Nat.eq_zero_or_pos events.length with hlen | hlen
    · have hev : events = [] := List.length_eq_zero.mp hlen
      subst hev
      simp [average_position, himp]
    · rw [average_position, if_neg (by omega), himp, hpos]

/-- C9 witness: one click at position 2 and one impression at position 3 give
average_position = 5/2. -/
theorem position_sum_law_witness :
    (∀ e ∈ [("click", (2 : ℕ)), ("impression", 3)],
      e.1 = "click" ∨ e.1 = "impression" ∨ e.1 = "skip")
    ∧ average_position ((runEvents [("click", (2 : ℕ)), ("impression", 3)]).getD zeroStats)
      = ((([("click", (2 : ℕ)), ("impression", 3)].map Prod.snd).sum : ℕ) : ℚ)
        / (([("click", (2 : ℕ)), ("impression", 3)].length : ℕ) : ℚ) :=
  ⟨by decide, (position_sum_law _).2 (by decide)⟩

/-! ## NeuralReranker.rerank (src/app/services/neural_reranker.py) -/

/-- One candidate dict as it reaches the reranker. Only the keys the reranker
reads or writes are modelled; `neural_score : Option (Option ℚ)` distinguishes
an absent key (`none`) from a key explicitly set to Python `None`
(`some none`), and `final_score` / `normalized_neural_score` are `none` while
their keys are absent. A `.get` lookup of an absent key yields null. -/
structure RerankCandidate where
  output_id : String
  composite_score : ℚ
  neural_score : Option (Option ℚ)
  normalized_neural_score : Option ℚ
  final_score : Option ℚ
  deriving DecidableEq

/-- Stable insert for a descending sort on a rational key: an element is
placed before every later element with a key no larger than its own. -/
def insertKeyDesc (key : RerankCandidate → ℚ) (c : RerankCandidate) :
    List RerankCandidate → List RerankCandidate
  | [] => [c]
  | d :: rest => if key d ≤ key c then c :: d :: rest else d :: insertKeyDesc key c rest

/-- Stable descending sort by a rational key, modelling Python
`list.sort(key=..., reverse=True)` (Timsort is stable; equal keys keep their
original relative order). -/
def sortKeyDesc (key : RerankCandidate → ℚ) : List RerankCandidate → List RerankCandidate
  | [] => []
  | c :: rest => insertKeyDesc key c (sortKeyDesc key rest)

/-- Method `NeuralReranker.rerank`. `enabled` is `self.enabled`;
`reranker_loaded` is whether `self.reranker` is non-None (FlashRank import and
load succeeded); `neural_results` is the id-keyed score dict obtained from the
cross-encoder call (an oracle for the external model, looked up with default
0.0); `rerank_raises` is whether the rerank block raises. Branches in source
order: empty input, reranker unavailable, fewer than 10 candidates, the
exception handler, and the full neural path with score blending. -/
def NeuralReranker.rerank (enabled reranker_loaded : Bool)
    (neural_results : String → Option ℚ) (rerank_raises : Bool)
    (candidates : List RerankCandidate) (top_k : ℕ) (blend_weight : ℚ) :
    List RerankCandidate :=
  if candidates.isEmpty then []
  else if !enabled || !reranker_loaded then candidates.take top_k
  else if candidates.length < 10 then
    (candidates.map fun c =>
      { c with neural_score := some none, final_score := some c.composite_score }).take top_k
  else if rerank_raises then
    (sortKeyDesc (fun c => c.composite_score) candidates).take top_k
  else
    let scored := candidates.map fun c =>
      let neural_score := (neural_results c.output_id).getD 0
      let normalized_neural := max 0 (min 1 ((neural_score + 10) / 20))
      { c with
        neural_score := some (some neural_score)
        normalized_neural_score := some normalized_neural
        final_score :=
          some (blend_weight * normalized_neural + (1 - blend_weight) * c.composite_score) }
    (sortKeyDesc (fun c => c.final_score.getD 0) scored).take top_k

/-! ## Claim C4: rerank when the reranker is unavailable -/

/-- C4 counterexample: with the reranker unavailable, the returned candidate
(final scores never written by the ranking stage) still has no final_score
key, so reading it yields null rather than the candidate's composite_score
of 1/2. -/
theorem rerank_unavailable_counterexample :
    (NeuralReranker.rerank false false (fun _ => none) false
        [{ output_id := "a", composite_score := 1 / 2, neural_score := none,
           normalized_neural_score := none, final_score := none }] 30 (3 / 5)).map
      RerankCandidate.final_score = [none]
    ∧ (none : Option ℚ) ≠ some (1 / 2) := by
  constructor
  · rfl
  · simp

/-- C4 amended: whenever the reranker is unavailable (disabled or failed to
load), rerank returns the candidate list in unchanged order truncated to
top_k with every candidate completely unmodified; in particular the
final_score and neural_score keys are not written, so both read as null
(rather than final_score being set to composite_score), and downstream
stages fall back to composite_score themselves. -/
theorem rerank_unavailable_identity (enabled reranker_loaded : Bool)
    (neural_results : String → Option ℚ) (rerank_raises : Bool)
    (candidates : List RerankCandidate) (top_k : ℕ) (blend_weight : ℚ)
    (h : enabled = false ∨ reranker_loaded = false) :
    NeuralReranker.rerank enabled reranker_loaded neural_results rerank_raises
      candidates top_k blend_weight = candidates.take top_k := by
  rw [NeuralReranker.rerank]
  rcases h with rfl | rfl
  · cases candidates <;> simp
  · cases candidates <;> cases enabled <;> simp

/-- C4 witness: the amended theorem at a concrete disabled reranker and a
one-candidate list. -/
theorem rerank_unavailable_identity_witness :
    (false = false ∨ true = false)
    ∧ NeuralReranker.rerank false true (fun _ => none) false
        [{ output_id := "a", composite_score := 1 / 2, neural_score := none,
           normalized_neural_score := none, final_score := none }] 30 (3 / 5)
      = [{ output_id := "a", composite_score := 1 / 2, neural_score := none,
           normalized_neural_score := none, final_score := none }].take 30 :=
  ⟨Or.inl rfl,
    rerank_unavailable_identity false true (fun _ => none) false _ 30 (3 / 5) (Or.inl rfl)⟩

/-! ## RetrievalService semantic score (src/app/services/retrieval.py) -/

/-- Dot product of two embedding vectors (componentwise product, summed). -/
def dotList (a b : List ℝ) : ℝ := (List.zipWith (fun x y => x * y) a b).sum

/-- Euclidean norm of an embedding vector. -/
noncomputable def vecNorm (a : List ℝ) : ℝ := Real.sqrt (dotList a a)

/-- The pgvector cosine-distance operator evaluated by
`Song.embedding.cosine_distance(query_embedding_list)` in the retrieval SQL:
one minus the cosine similarity of the two vectors. -/
noncomputable def cosine_distance (a b : List ℝ) : ℝ :=
  1 - dotList a b / (vecNorm a * vecNorm b)

/-- retrieval.py line 79: the SQL column
`(1 - cosine_distance).label("semantic_score")`. -/
noncomputable def semantic_score_column (a b : List ℝ) : ℝ :=
  1 - cosine_distance a b

/-- retrieval.py line 117: the candidate value
`float(row.semantic_score) if row.semantic_score else 0.0`; the falsy guard
maps a zero column to 0.0, leaving every value unchanged. -/
noncomputable def candidate_semantic_score (a b : List ℝ) : ℝ :=
  if semantic_score_column a b = 0 then 0 else semantic_score_column a b

/-- The dot product as a finite sum over the common index range. -/
theorem dotList_eq_sum (a : List ℝ) : ∀ b : List ℝ,
    dotList a b
      = ∑ i ∈ Finset.range (min a.length b.length), a.getD i 0 * b.getD i 0 := by
  induction a with
  | nil => intro b; simp [dotList]
  | cons x xs ih =>
    intro b
    cases b with
    | nil => simp [dotList]
    | cons y ys =>
      simp only [dotList, List.zipWith_cons_cons, List.sum_cons, List.length_cons,
        Nat.succ_min_succ]
      rw [Finset.sum_range_succ']
      simp only [List.getD_cons_succ, List.getD_cons_zero]
      have h := ih ys
      simp only [dotList] at h
      rw [← h]
      exact add_comm _ _

/-- The self dot product is the sum of the squared coordinates. -/
theorem dotList_self_eq (a : List ℝ) :
    dotList a a = ∑ i ∈ Finset.range a.length, a.getD i 0 ^ 2 := by
  rw [dotList_eq_sum, min_self]
  exact Finset.sum_congr rfl fun i _ => (pow_two _).symm

/-- The self dot product is non-negative. -/
theorem dotList_self_nonneg (a : List ℝ) : 0 ≤ dotList a a := by
  rw [dotList_self_eq]
  exact Finset.sum_nonneg fun i _ => sq_nonneg _

/-- Cauchy-Schwarz for embedding vectors, squared form. -/
theorem dotList_sq_le (a b : List ℝ) :
    dotList a b ^ 2 ≤ dotList a a * dotList b b := by
  rw [dotList_eq_sum, dotList_self_eq, dotList_self_eq]
  refine le_trans
    (Finset.sum_mul_sq_le_sq_mul_sq _ (fun i => a.getD i 0) (fun i => b.getD i 0)) ?_
  have h1 : ∑ i ∈ Finset.range (min a.length b.length), a.getD i 0 ^ 2
      ≤ ∑ i ∈ Finset.range a.length, a.getD i 0 ^ 2 :=
    Finset.sum_le_sum_of_subset_of_nonneg
      (Finset.range_subset.2 (Nat.min_le_left _ _)) (fun i _ _ => sq_nonneg _)
  have h2 : ∑ i ∈ Finset.range (min a.length b.length), b.getD i 0 ^ 2
      ≤ ∑ i ∈ Finset.range b.length, b.getD i 0 ^ 2 :=
    Finset.sum_le_sum_of_subset_of_nonneg
      (Finset.range_subset.2 (Nat.min_le_right _ _)) (fun i _ _ => sq_nonneg _)
  exact mul_le_mul h1 h2 (Finset.sum_nonneg fun i _ => sq_nonneg _)
    (Finset.sum_nonneg fun i _ => sq_nonneg _)

/-- Cauchy-Schwarz: the dot product is bounded by the product of the norms. -/
theorem abs_dotList_le (a b : List ℝ) : |dotList a b| ≤ vecNorm a * vecNorm b := by
  calc |dotList a b| = Real.sqrt (dotList a b ^ 2) := (Real.sqrt_sq_eq_abs _).symm
    _ ≤ Real.sqrt (dotList a a * dotList b b) := Real.sqrt_le_sqrt (dotList_sq_le a b)
    _ = vecNorm a * vecNorm b := by
        rw [vecNorm, vecNorm, Real.sqrt_mul (dotList_self_nonneg a)]

/-! ## Claim C5: the candidate semantic score and its range -/

/-- C5 counterexample: for the one-dimensional song embedding [1] and query
embedding [-1] the candidate semantic_score is 1 - cosine_distance = -1,
which does not lie in [0, 1]. -/
theorem candidate_semantic_score_negative :
    candidate_semantic_score [(1 : ℝ)] [(-1 : ℝ)] = -1
    ∧ ¬(0 ≤ candidate_semantic_score [(1 : ℝ)] [(-1 : ℝ)]) := by
  have hd : dotList [(1 : ℝ)] [(-1 : ℝ)] = -1 := by simp [dotList]
  have hna : vecNorm [(1 : ℝ)] = 1 := by simp [vecNorm, dotList]
  have hnb : vecNorm [(-1 : ℝ)] = 1 := by simp [vecNorm, dotList]
  have hcs : candidate_semantic_score [(1 : ℝ)] [(-1 : ℝ)] = -1 := by
    simp only [candidate_semantic_score, semantic_score_column, cosine_distance,
      hd, hna, hnb]
    norm_num
  exact ⟨hcs, by rw [hcs]; norm_num⟩

/-- C5 amended: every retrieved candidate's semantic_score equals
1 - cosine_distance(song.embedding, query_embedding), and for embeddings of
non-zero norm this value lies in [-1, 1] (it is the cosine similarity); the
interval [0, 1] in the original claim is wrong, as the counterexample with
anti-parallel embeddings shows. -/
theorem candidate_semantic_score_spec (a b : List ℝ)
    (ha : vecNorm a ≠ 0) (hb : vecNorm b ≠ 0) :
    candidate_semantic_score a b = 1 - cosine_distance a b
    ∧ -1 ≤ 1 - cosine_distance a b ∧ 1 - cosine_distance a b ≤ 1 := by
  have hna : 0 < vecNorm a := lt_of_le_of_ne (Real.sqrt_nonneg _) (Ne.symm ha)
  have hnb : 0 < vecNorm b := lt_of_le_of_ne (Real.sqrt_nonneg _) (Ne.symm hb)
  have hprod : 0 < vecNorm a * vecNorm b := mul_pos hna hnb
  have hsem : 1 - cosine_distance a b = dotList a b / (vecNorm a * vecNorm b) := by
    rw [cosine_distance]; ring
  have habs : |dotList a b / (vecNorm a * vecNorm b)| ≤ 1 := by
    rw [abs_div, abs_of_pos hprod, div_le_one hprod]
    exact abs_dotList_le a b
  obtain ⟨hlo, hhi⟩ := abs_le.mp habs
  refine ⟨?_, ?_, ?_⟩
  · rw [candidate_semantic_score]
    split
    · rename_i h0
      rw [semantic_score_column] at h0
      exact h0.symm
    · rfl
  · rw [hsem]; exact hlo
  · rw [hsem]; exact hhi

/-- C5 witness: the amended theorem at the concrete unit embeddings [1], [1]. -/
theorem candidate_semantic_score_spec_witness :
    vecNorm [(1 : ℝ)] ≠ 0
    ∧ (candidate_semantic_score [(1 : ℝ)] [(1 : ℝ)]
        = 1 - cosine_distance [(1 : ℝ)] [(1 : ℝ)]
      ∧ -1 ≤ 1 - cosine_distance [(1 : ℝ)] [(1 : ℝ)]
      ∧ 1 - cosine_distance [(1 : ℝ)] [(1 : ℝ)] ≤ 1) := by
  have h1 : vecNorm [(1 : ℝ)] ≠ 0 := by simp [vecNorm, dotList]
  exact ⟨h1, candidate_semantic_score_spec _ _ h1 h1⟩

/-! ## MMRDiversifier (src/app/core/mmr.py) -/

/-- An MMR candidate: id, relevance score, embedding, and the one metadata
entry `diversify` reads, `metadata.get("primary_genre", "other")`
(`primary_genre = none` models a metadata dict without that key). -/
structure MMRCandidate where
  id : String
  relevance_score : ℚ
  embedding : List ℚ
  primary_genre : Option String
  deriving DecidableEq

/-- An MMR result row: `{id, relevance, mmr_score, redundancy, rank}`. -/
structure MMRResult where
  id : String
  relevance_score : ℚ
  mmr_score : ℚ
  redundancy_score : ℚ
  rank : ℕ
  deriving DecidableEq

/-- The `similarity_fn` capability of MMRDiversifier (default cosine
similarity; every claim proved here holds for an arbitrary similarity
function, hence for the default). -/
abbrev SimilarityFn := List ℚ → List ℚ → ℚ

/-- A genre-quota dict `slot[genre]`, as an association list with the unique
keys of a Python dict. -/
abbrev GenreSlots := List (String × ℕ)

/-- mmr.py line 72: `candidate.metadata.get("primary_genre", "other")`. -/
def candGenre (c : MMRCandidate) : String := c.primary_genre.getD "other"

/-- Method `compute_redundancy`: 0 when nothing is selected, otherwise the
maximum similarity to an already-selected candidate. -/
def compute_redundancy (sim : SimilarityFn) (candidate : MMRCandidate)
    (selected : List MMRCandidate) : ℚ :=
  match selected with
  | [] => 0
  | s :: rest =>
    (rest.map (fun t => sim candidate.embedding t.embedding)).foldl max
      (sim candidate.embedding s.embedding)

/-- Method `compute_mmr_score`: `lambda * relevance - (1 - lambda) * redundancy`. -/
def compute_mmr_score (lambda_relevance relevance redundancy : ℚ) : ℚ :=
  lambda_relevance * relevance - (1 - lambda_relevance) * redundancy

/-- The quota skip test of the selection loop (mmr.py lines 71-74): with a
truthy `genre_slots` dict, a candidate is skipped when its genre is one of the
quota keys and that genre's count has reached its slot. `genre_counts` has
exactly the quota keys, so the `genre in genre_counts` test is key membership
in the quota dict. -/
def slotBlocked (genre_slots : Option GenreSlots) (genre_counts : String → ℕ)
    (c : MMRCandidate) : Bool :=
  match genre_slots with
  | none => false
  | some m =>
    if m.isEmpty then false
    else
      match List.lookup (candGenre c) m with
      | some cap => decide (cap ≤ genre_counts (candGenre c))
      | none => false

/-- The genre-count update after a pick (mmr.py lines 90-93): only performed
for a truthy `genre_slots` and only for genres that are quota keys. -/
def bumpGenreCounts (genre_slots : Option GenreSlots) (genre_counts : String → ℕ)
    (c : MMRCandidate) : String → ℕ :=
  match genre_slots with
  | none => genre_counts
  | some m =>
    if m.isEmpty then genre_counts
    else if (List.lookup (candGenre c) m).isSome then
      fun g => if g = candGenre c then genre_counts g + 1 else genre_counts g
    else genre_counts

/-- One pass of the inner `for i, candidate in enumerate(remaining)` loop:
returns the chosen candidate, its MMR score and redundancy, and the remaining
list with the chosen candidate removed (`remaining.pop(best_idx)`), or `none`
when every candidate is quota-blocked (`best_score == -inf`). A later
candidate replaces the current best only on a strictly greater score, so the
earliest maximum wins, as in the source. -/
def findBest (sim : SimilarityFn) (lam : ℚ) (genre_slots : Option GenreSlots)
    (genre_counts : String → ℕ) (selected : List MMRCandidate) :
    List MMRCandidate → Option (MMRCandidate × ℚ × ℚ × List MMRCandidate)
  | [] => none
  | c :: rest =>
    match findBest sim lam genre_slots genre_counts selected rest with
    | none =>
      if slotBlocked genre_slots genre_counts c then none
      else
        some (c, compute_mmr_score lam c.relevance_score (compute_redundancy sim c selected),
          compute_redundancy sim c selected, rest)
    | some (b, s, r, rest2) =>
      if slotBlocked genre_slots genre_counts c then some (b, s, r, c :: rest2)
      else
        if compute_mmr_score lam c.relevance_score (compute_redundancy sim c selected) < s then
          some (b, s, r, c :: rest2)
        else
          some (c, compute_mmr_score lam c.relevance_score (compute_redundancy sim c selected),
            compute_redundancy sim c selected, rest)

/-- The `while len(selected) < k and remaining` loop of `diversify`, with the
fuel argument equal to `remaining.length` (each iteration pops exactly one
candidate, so this fuel runs the loop to its own exit condition). Returns the
final `(selected, results)` pair. -/
def diversifyGo (sim : SimilarityFn) (lam : ℚ) (genre_slots : Option GenreSlots) (k : ℕ) :
    ℕ → List MMRCandidate → List MMRCandidate → (String → ℕ) → List MMRResult →
      List MMRCandidate × List MMRResult
  | 0, _, selected, _, results => (selected, results)
  | fuel + 1, remaining, selected, genre_counts, results =>
    if selected.length < k ∧ remaining ≠ [] then
      match findBest sim lam genre_slots genre_counts selected remaining with
      | none => (selected, results)
      | some (chosen, best_score, best_red, rest) =>
        let row : MMRResult :=
          { id := chosen.id
            relevance_score := chosen.relevance_score
            mmr_score := best_score
            redundancy_score := best_red
            rank := results.length + 1 }
        diversifyGo sim lam genre_slots k fuel rest (selected ++ [chosen])
          (bumpGenreCounts genre_slots genre_counts chosen) (results ++ [row])
    else (selected, results)

/-- Method `MMRDiversifier.diversify(candidates, k, genre_slots)`: the
returned `results` list. `genre_counts` starts at zero for every genre. -/
def diversify (sim : SimilarityFn) (lam : ℚ) (candidates : List MMRCandidate)
    (k : ℕ) (genre_slots : Option GenreSlots) : List MMRResult :=
  if candidates.isEmpty then []
  else (diversifyGo sim lam genre_slots k candidates.length candidates [] (fun _ => 0) []).2

/-- The `selected` list accumulated by the same run of `diversify`; the
results refer to the selected candidates one-to-one, in order. -/
def diversifySelected (sim : SimilarityFn) (lam : ℚ) (candidates : List MMRCandidate)
    (k : ℕ) (genre_slots : Option GenreSlots) : List MMRCandidate :=
  if candidates.isEmpty then []
  else (diversifyGo sim lam genre_slots k candidates.length candidates [] (fun _ => 0) []).1

/-- Spec-side ordering for C6: stable insert of a candidate before every later
candidate whose relevance does not exceed its own. -/
def insertRelDesc (c : MMRCandidate) : List MMRCandidate → List MMRCandidate
  | [] => [c]
  | d :: rest =>
    if d.relevance_score ≤ c.relevance_score then c :: d :: rest
    else d :: insertRelDesc c rest

/-- Spec-side ordering for C6, following the words of the spec: the
candidates sorted by relevance_score in non-increasing order with ties broken
by input order (a stable descending insertion sort). -/
def relevanceSort : List MMRCandidate → List MMRCandidate
  | [] => []
  | c :: rest => insertRelDesc c (relevanceSort rest)

/-- The MMR result rows a λ=1 run produces for a given selection order:
rank is the 1-based position, mmr_score equals the relevance, and the
redundancy is computed against the previously selected prefix. -/
def resultsOfOrderAux (sim : SimilarityFn) :
    List MMRCandidate → ℕ → List MMRCandidate → List MMRResult
  | _, _, [] => []
  | selected, rank0, c :: rest =>
    { id := c.id, relevance_score := c.relevance_score, mmr_score := c.relevance_score,
      redundancy_score := compute_redundancy sim c selected, rank := rank0 + 1 }
      :: resultsOfOrderAux sim (selected ++ [c]) (rank0 + 1) rest

/-- The MMR result rows for a full selection order, starting from an empty
selected set and rank 1. -/
def resultsOfOrder (sim : SimilarityFn) (l : List MMRCandidate) : List MMRResult :=
  resultsOfOrderAux sim [] 0 l

/-- First maximum by relevance: returns the earliest candidate of maximal
relevance_score together with the list with that candidate removed. -/
def extractMax : List MMRCandidate → Option (MMRCandidate × List MMRCandidate)
  | [] => none
  | c :: rest =>
    match extractMax rest with
    | none => some (c, rest)
    | some (b, rest2) =>
      if c.relevance_score < b.relevance_score then some (b, c :: rest2)
      else some (c, rest)

/-- The number of candidates in a list whose primary genre is g. -/
def countGenre : List MMRCandidate → String → ℕ
  | [], _ => 0
  | c :: rest, g => (if candGenre c = g then 1 else 0) + countGenre rest g

/-! ## Claim C6: MMR with lambda = 1 and no genre quotas -/

/-- With lambda = 1 the MMR score is exactly the relevance. -/
theorem compute_mmr_score_one (r red : ℚ) : compute_mmr_score 1 r red = r := by
  rw [compute_mmr_score]; ring

/-- With lambda = 1 and no quota dict, the inner loop picks the earliest
candidate of maximal relevance. -/
theorem findBest_one_none (sim : SimilarityFn) (genre_counts : String → ℕ)
    (selected : List MMRCandidate) : ∀ l : List MMRCandidate,
    findBest sim 1 none genre_counts selected l
      = (extractMax l).map
          (fun p => (p.1, p.1.relevance_score, compute_redundancy sim p.1 selected, p.2)) := by
  intro l
  induction l with
  | nil => rfl
  | cons c rest ih =>
    cases h : extractMax rest with
    | none =>
      have hrest : findBest sim 1 none genre_counts selected rest = none := by
        rw [ih, h]; rfl
      simp only [findBest, hrest, extractMax, h]
      simp [slotBlocked, compute_mmr_score_one]
    | some p =>
      obtain ⟨b, rest2⟩ := p
      have hrest : findBest sim 1 none genre_counts selected rest
          = some (b, b.relevance_score, compute_redundancy sim b selected, rest2) := by
        rw [ih, h]; rfl
      simp only [findBest, hrest, extractMax, h]
      simp only [slotBlocked, Bool.false_eq_true, if_false, compute_mmr_score_one]
      by_cases hlt : c.relevance_score < b.relevance_score
      · simp [hlt]
      · simp [hlt]

/-- extractMax returns none only on the empty list. -/
theorem extractMax_eq_none {l : List MMRCandidate} (h : extractMax l = none) : l = [] := by
  cases l with
  | nil => rfl
  | cons c rest =>
    exfalso
    cases h2 : extractMax rest with
    | none => simp [extractMax, h2] at h
    | some p =>
      obtain ⟨b, rest2⟩ := p
      by_cases hlt : c.relevance_score < b.relevance_score <;>
        simp [extractMax, h2, hlt] at h

/-- extractMax on a non-empty list returns a candidate. -/
theorem extractMax_isSome (l : List MMRCandidate) (h : l ≠ []) :
    ∃ b rest, extractMax l = some (b, rest) := by
  cases l with
  | nil => exact absurd rfl h
  | cons c rest =>
    cases h2 : extractMax rest with
    | none => exact ⟨c, rest, by simp [extractMax, h2]⟩
    | some p =>
      obtain ⟨b, rest2⟩ := p
      by_cases hlt : c.relevance_score < b.relevance_score
      · exact ⟨b, c :: rest2, by simp [extractMax, h2, hlt]⟩
      · exact ⟨c, rest, by simp [extractMax, h2, hlt]⟩

/-- extractMax removes exactly one candidate. -/
theorem extractMax_length : ∀ {l : List MMRCandidate} {b rest},
    extractMax l = some (b, rest) → rest.length + 1 = l.length := by
  intro l
  induction l with
  | nil => intro b rest h; simp [extractMax] at h
  | cons c t ih =>
    intro b rest h
    cases h2 : extractMax t with
    | none =>
      simp only [extractMax, h2, Option.some.injEq, Prod.mk.injEq] at h
      obtain ⟨rfl, rfl⟩ := h
      simp
    | some p =>
      obtain ⟨b0, rest0⟩ := p
      have hlen := ih h2
      by_cases hlt : c.relevance_score < b0.relevance_score
      · simp only [extractMax, h2, if_pos hlt, Option.some.injEq, Prod.mk.injEq] at h
        obtain ⟨rfl, rfl⟩ := h
        simp only [List.length_cons] at hlen ⊢
        omega
      · simp only [extractMax, h2, if_neg hlt, Option.some.injEq, Prod.mk.injEq] at h
        obtain ⟨rfl, rfl⟩ := h
        simp

/-- The stable descending sort of a list is its first maximum followed by the
stable sort of the list with that maximum removed. -/
theorem relevanceSort_extract : ∀ {l : List MMRCandidate} {b rest},
    extractMax l = some (b, rest) → relevanceSort l = b :: relevanceSort rest := by
  intro l
  induction l with
  | nil => intro b rest h; simp [extractMax] at h
  | cons c t ih =>
    intro b rest h
    cases h2 : extractMax t with
    | none =>
      have ht : t = [] := extractMax_eq_none h2
      subst ht
      simp only [extractMax, Option.some.injEq, Prod.mk.injEq] at h
      obtain ⟨rfl, rfl⟩ := h
      rfl
    | some p =>
      obtain ⟨m, t2⟩ := p
      have iht := ih h2
      by_cases hlt : c.relevance_score < m.relevance_score
      · simp only [extractMax, h2, if_pos hlt, Option.some.injEq, Prod.mk.injEq] at h
        obtain ⟨rfl, rfl⟩ := h
        show insertRelDesc c (relevanceSort t) = m :: relevanceSort (c :: t2)
        rw [iht]
        simp only [insertRelDesc, if_neg (not_le.mpr hlt)]
        rfl
      · simp only [extractMax, h2, if_neg hlt, Option.some.injEq, Prod.mk.injEq] at h
        obtain ⟨rfl, rfl⟩ := h
        show insertRelDesc c (relevanceSort t) = c :: relevanceSort t
        rw [iht]
        simp only [insertRelDesc, if_pos (not_lt.mp hlt)]

/-- The selection loop with lambda = 1 and no quota dict returns the results
of the stable relevance-descending order of the remaining candidates,
truncated to the remaining budget. -/
theorem diversifyGo_one_none (sim : SimilarityFn) (k : ℕ) :
    ∀ (fuel : ℕ) (remaining selected : List MMRCandidate) (genre_counts : String → ℕ)
      (results : List MMRResult), remaining.length = fuel →
    (diversifyGo sim 1 none k fuel remaining selected genre_counts results).2
      = results ++ resultsOfOrderAux sim selected results.length
          ((relevanceSort remaining).take (k - selected.length)) := by
  intro fuel
  induction fuel with
  | zero =>
    intro remaining selected genre_counts results hlen
    have h0 : remaining = [] := List.length_eq_zero.mp hlen
    subst h0
    simp [diversifyGo, relevanceSort, resultsOfOrderAux]
  | succ n ih =>
    intro remaining selected genre_counts results hlen
    have hne : remaining ≠ [] := by
      intro h0; subst h0; simp at hlen
    by_cases hk : selected.length < k
    · obtain ⟨b, rest, hbx⟩ := extractMax_isSome remaining hne
      have hfb : findBest sim 1 none genre_counts selected remaining
          = some (b, b.relevance_score, compute_redundancy sim b selected, rest) := by
        rw [findBest_one_none, hbx]; rfl
      have hrl : rest.length = n := by
        have := extractMax_length hbx
        omega
      simp only [diversifyGo, if_pos (show selected.length < k ∧ remaining ≠ [] from ⟨hk, hne⟩),
        hfb, bumpGenreCounts]
      rw [ih rest (selected ++ [b]) genre_counts _ hrl]
      rw [relevanceSort_extract hbx]
      have hk1 : k - selected.length = (k - (selected.length + 1)) + 1 := by omega
      rw [hk1, List.take_succ_cons, resultsOfOrderAux]
      simp [List.length_append]
    · have hcond : ¬(selected.length < k ∧ remaining ≠ []) := fun hc => hk hc.1
      simp only [diversifyGo, if_neg hcond]
      have hk0 : k - selected.length = 0 := by omega
      rw [hk0]
      simp [resultsOfOrderAux]

/-- Every result row of a lambda = 1 order has mmr_score equal to its
relevance. -/
theorem resultsOfOrderAux_mmr (sim : SimilarityFn) :
    ∀ (l selected : List MMRCandidate) (rank0 : ℕ),
      ∀ res ∈ resultsOfOrderAux sim selected rank0 l, res.mmr_score = res.relevance_score := by
  intro l
  induction l with
  | nil => intro selected rank0 res hres; simp [resultsOfOrderAux] at hres
  | cons c rest ih =>
    intro selected rank0 res hres
    simp only [resultsOfOrderAux, List.mem_cons] at hres
    rcases hres with rfl | hres
    · rfl
    · exact ih (selected ++ [c]) (rank0 + 1) res hres

/-- The relevance scores of the result rows are those of the underlying
candidate order. -/
theorem resultsOfOrderAux_map_rel (sim : SimilarityFn) :
    ∀ (l selected : List MMRCandidate) (rank0 : ℕ),
      (resultsOfOrderAux sim selected rank0 l).map MMRResult.relevance_score
        = l.map MMRCandidate.relevance_score := by
  intro l
  induction l with
  | nil => intro selected rank0; rfl
  | cons c rest ih =>
    intro selected rank0
    simp only [resultsOfOrderAux, List.map_cons]
    rw [ih (selected ++ [c]) (rank0 + 1)]

/-- Membership in an insertion. -/
theorem mem_insertRelDesc (c x : MMRCandidate) :
    ∀ l : List MMRCandidate, x ∈ insertRelDesc c l ↔ x = c ∨ x ∈ l := by
  intro l
  induction l with
  | nil => simp [insertRelDesc]
  | cons d rest ih =>
    simp only [insertRelDesc]
    split
    · simp [List.mem_cons]
    · simp only [List.mem_cons, ih]
      tauto

/-- Inserting into a relevance-sorted list keeps it sorted. -/
theorem insertRelDesc_pairwise (c : MMRCandidate) :
    ∀ l : List MMRCandidate,
      l.Pairwise (fun a b => b.relevance_score ≤ a.relevance_score) →
      (insertRelDesc c l).Pairwise (fun a b => b.relevance_score ≤ a.relevance_score) := by
  intro l
  induction l with
  | nil => intro _; simp [insertRelDesc]
  | cons d rest ih =>
    intro h
    rw [List.pairwise_cons] at h
    obtain ⟨hd, hrest⟩ := h
    rw [insertRelDesc]
    split
    · rename_i hdc
      rw [List.pairwise_cons]
      constructor
      · intro x hx
        rcases List.mem_cons.mp hx with rfl | hx
        · exact hdc
        · exact le_trans (hd x hx) hdc
      · exact List.pairwise_cons.mpr ⟨hd, hrest⟩
    · rename_i hdc
      rw [List.pairwise_cons]
      constructor
      · intro x hx
        rcases (mem_insertRelDesc c x rest).mp hx with rfl | hx
        · exact le_of_lt (not_le.mp hdc)
        · exact hd x hx
      · exact ih hrest

/-- The spec-side sort is sorted by non-increasing relevance. -/
theorem relevanceSort_pairwise :
    ∀ l : List MMRCandidate,
      (relevanceSort l).Pairwise (fun a b => b.relevance_score ≤ a.relevance_score) := by
  intro l
  induction l with
  | nil => simp [relevanceSort]
  | cons c rest ih => exact insertRelDesc_pairwise c (relevanceSort rest) ih

/-- C6: with lambda = 1 and no genre-quota dict, diversify returns exactly
the result rows of the stable relevance-descending order of the candidates
(ties broken by input order), truncated to k; the returned relevance scores
are non-increasing and every returned row's mmr_score equals its
relevance_score. -/
theorem mmr_lambda_one_relevance_order (sim : SimilarityFn)
    (candidates : List MMRCandidate) (k : ℕ) :
    diversify sim 1 candidates k none
      = resultsOfOrder sim ((relevanceSort candidates).take k)
    ∧ ((diversify sim 1 candidates k none).map MMRResult.relevance_score).Pairwise
        (fun a b => b ≤ a)
    ∧ ∀ res ∈ diversify sim 1 candidates k none, res.mmr_score = res.relevance_score := by
  have hmain : diversify sim 1 candidates k none
      = resultsOfOrder sim ((relevanceSort candidates).take k) := by
    rw [diversify]
    split
    · rename_i hemp
      have : candidates = [] := by simpa [List.isEmpty_iff] using hemp
      subst this
      simp [relevanceSort, resultsOfOrder, resultsOfOrderAux]
    · rw [diversifyGo_one_none sim k candidates.length candidates [] (fun _ => 0) [] rfl]
      simp [resultsOfOrder]
  refine ⟨hmain, ?_, ?_⟩
  · rw [hmain, resultsOfOrder, resultsOfOrderAux_map_rel]
    have hsorted := relevanceSort_pairwise candidates
    have htake := hsorted.sublist (List.take_sublist k (relevanceSort candidates))
    exact (List.pairwise_map).mpr htake
  · intro res hres
    rw [hmain] at hres
    exact resultsOfOrderAux_mmr sim _ [] 0 res hres

/-! ## Claim C7: genre quotas are never exceeded -/

/-- The inner loop never returns a quota-blocked candidate: a blocked
candidate is skipped (`continue`) and cannot become the best pick. -/
theorem findBest_not_blocked (sim : SimilarityFn) (lam : ℚ) (gs : Option GenreSlots)
    (counts : String → ℕ) (selected : List MMRCandidate) :
    ∀ (l : List MMRCandidate) (c : MMRCandidate) (s r : ℚ) (rest : List MMRCandidate),
      findBest sim lam gs counts selected l = some (c, s, r, rest) →
      slotBlocked gs counts c = false := by
  intro l
  induction l with
  | nil => intro c s r rest h; simp [findBest] at h
  | cons c0 rest0 ih =>
    intro c s r rest h
    cases h2 : findBest sim lam gs counts selected rest0 with
    | none =>
      simp only [findBest, h2] at h
      by_cases hb : slotBlocked gs counts c0
      · rw [if_pos hb] at h
        simp at h
      · rw [if_neg hb] at h
        simp only [Option.some.injEq, Prod.mk.injEq] at h
        obtain ⟨rfl, -⟩ := h
        simpa using hb
    | some p =>
      obtain ⟨b, s0, r0, rest2⟩ := p
      simp only [findBest, h2] at h
      by_cases hb : slotBlocked gs counts c0
      · rw [if_pos hb] at h
        simp only [Option.some.injEq, Prod.mk.injEq] at h
        obtain ⟨rfl, -⟩ := h
        exact ih b s0 r0 rest2 h2
      · rw [if_neg hb] at h
        split at h
        · simp only [Option.some.injEq, Prod.mk.injEq] at h
          obtain ⟨rfl, -⟩ := h
          exact ih b s0 r0 rest2 h2
        · simp only [Option.some.injEq, Prod.mk.injEq] at h
          obtain ⟨rfl, -⟩ := h
          simpa using hb

/-- Genre counts add over list append. -/
theorem countGenre_append (l1 l2 : List MMRCandidate) (g : String) :
    countGenre (l1 ++ l2) g = countGenre l1 g + countGenre l2 g := by
  induction l1 with
  | nil => simp [countGenre]
  | cons c rest ih =>
    show countGenre (c :: (rest ++ l2)) g = countGenre (c :: rest) g + countGenre l2 g
    simp only [countGenre]
    rw [ih]
    omega

/-- The loop invariant for the quota bound: if the tracked genre counts agree
with the selected list and respect every quota, the final selected list
respects every quota. -/
theorem diversifyGo_genre_bound (sim : SimilarityFn) (lam : ℚ) (m : GenreSlots) (k : ℕ) :
    ∀ (fuel : ℕ) (remaining selected : List MMRCandidate) (genre_counts : String → ℕ)
      (results : List MMRResult),
      (∀ g cap, List.lookup g m = some cap →
        genre_counts g = countGenre selected g ∧ countGenre selected g ≤ cap) →
      ∀ g cap, List.lookup g m = some cap →
        countGenre
          ((diversifyGo sim lam (some m) k fuel remaining selected genre_counts results).1) g
          ≤ cap := by
  intro fuel
  induction fuel with
  | zero =>
    intro remaining selected genre_counts results hinv g cap hg
    exact (hinv g cap hg).2
  | succ n ih =>
    intro remaining selected genre_counts results hinv g cap hg
    simp only [diversifyGo]
    split
    · cases hfb : findBest sim lam (some m) genre_counts selected remaining with
      | none => exact (hinv g cap hg).2
      | some p =>
        obtain ⟨chosen, bs, br, rest⟩ := p
        refine ih rest (selected ++ [chosen]) _ _ ?_ g cap hg
        intro g2 cap2 hg2
        have hblock := findBest_not_blocked sim lam (some m) genre_counts selected
          remaining chosen bs br rest hfb
        have hm : m ≠ [] := by
          intro h0
          subst h0
          simp [List.lookup] at hg2
        have hmE : m.isEmpty = false := by simpa [List.isEmpty_iff] using hm
        obtain ⟨hc1, hc2⟩ := hinv g2 cap2 hg2
        by_cases hgc : candGenre chosen = g2
        · have hlk : List.lookup (candGenre chosen) m = some cap2 := by rw [hgc]; exact hg2
          have hlt : genre_counts (candGenre chosen) < cap2 := by
            rw [slotBlocked, hmE] at hblock
            simp only [Bool.false_eq_true, if_false, hlk, decide_eq_false_iff_not] at hblock
            omega
          have hcount : countGenre (selected ++ [chosen]) g2 = countGenre selected g2 + 1 := by
            rw [countGenre_append]
            simp [countGenre, hgc]
          have hbump : bumpGenreCounts (some m) genre_counts chosen g2
              = genre_counts g2 + 1 := by
            simp [bumpGenreCounts, hmE, hgc, hg2]
          rw [hgc] at hlt
          constructor
          · rw [hbump, hcount, hc1]
          · rw [hcount]
            omega
        · have hcount : countGenre (selected ++ [chosen]) g2 = countGenre selected g2 := by
            rw [countGenre_append]
            simp [countGenre, hgc]
          have hbump : bumpGenreCounts (some m) genre_counts chosen g2 = genre_counts g2 := by
            rw [bumpGenreCounts, hmE]
            simp only [Bool.false_eq_true, if_false]
            split
            · simp [Ne.symm hgc]
            · rfl
          rw [hbump, hcount]
          exact ⟨hc1, hc2⟩
    · exact (hinv g cap hg).2

/-- The result rows and the selected candidates of one run carry the same ids
in the same order. -/
theorem diversifyGo_ids (sim : SimilarityFn) (lam : ℚ) (gs : Option GenreSlots) (k : ℕ) :
    ∀ (fuel : ℕ) (remaining selected : List MMRCandidate) (genre_counts : String → ℕ)
      (results : List MMRResult),
      results.map MMRResult.id = selected.map MMRCandidate.id →
      ((diversifyGo sim lam gs k fuel remaining selected genre_counts results).2).map
          MMRResult.id
        = ((diversifyGo sim lam gs k fuel remaining selected genre_counts results).1).map
            MMRCandidate.id := by
  intro fuel
  induction fuel with
  | zero => intro remaining selected genre_counts results h; exact h
  | succ n ih =>
    intro remaining selected genre_counts results h
    simp only [diversifyGo]
    split
    · cases hfb : findBest sim lam gs genre_counts selected remaining with
      | none => exact h
      | some p =>
        obtain ⟨chosen, bs, br, rest⟩ := p
        refine ih rest (selected ++ [chosen]) _ _ ?_
        simp [h]
    · exact h

/-- C7: for every candidate list, every k, every lambda, every similarity
function and every genre-quota dict, the number of selected items of a genre
that is a quota key never exceeds that genre's slot; the returned result rows
are exactly the selected candidates (same ids in the same order). -/
theorem mmr_genre_quota_bound (sim : SimilarityFn) (lam : ℚ)
    (candidates : List MMRCandidate) (k : ℕ) (m : GenreSlots) (g : String) (cap : ℕ)
    (h : List.lookup g m = some cap) :
    countGenre (diversifySelected sim lam candidates k (some m)) g ≤ cap
    ∧ (diversify sim lam candidates k (some m)).map MMRResult.id
      = (diversifySelected sim lam candidates k (some m)).map MMRCandidate.id := by
  rw [diversify, diversifySelected]
  split
  · exact ⟨Nat.zero_le _, rfl⟩
  · constructor
    · refine diversifyGo_genre_bound sim lam m k candidates.length candidates [] (fun _ => 0)
        [] ?_ g cap h
      intro g2 cap2 _
      exact ⟨rfl, Nat.zero_le _⟩
    · exact diversifyGo_ids sim lam (some m) k candidates.length candidates [] (fun _ => 0)
        [] rfl

/-- C7 witness: three rock candidates against a quota of one rock slot; at
most one rock candidate is selected. -/
theorem mmr_genre_quota_bound_witness :
    List.lookup "rock" [("rock", 1)] = some 1
    ∧ (countGenre
        (diversifySelected (fun _ _ => 0) 1
          [{ id := "a", relevance_score := 1, embedding := [1], primary_genre := some "rock" },
           { id := "b", relevance_score := 2, embedding := [2], primary_genre := some "rock" },
           { id := "c", relevance_score := 3, embedding := [3], primary_genre := some "rock" }]
          3 (some [("rock", 1)])) "rock" ≤ 1
      ∧ (diversify (fun _ _ => 0) 1
          [{ id := "a", relevance_score := 1, embedding := [1], primary_genre := some "rock" },
           { id := "b", relevance_score := 2, embedding := [2], primary_genre := some "rock" },
           { id := "c", relevance_score := 3, embedding := [3], primary_genre := some "rock" }]
          3 (some [("rock", 1)])).map MMRResult.id
        = (diversifySelected (fun _ _ => 0) 1
          [{ id := "a", relevance_score := 1, embedding := [1], primary_genre := some "rock" },
           { id := "b", relevance_score := 2, embedding := [2], primary_genre := some "rock" },
           { id := "c", relevance_score := 3, embedding := [3], primary_genre := some "rock" }]
          3 (some [("rock", 1)])).map MMRCandidate.id) :=
  ⟨rfl, mmr_genre_quota_bound (fun _ _ => 0) 1 _ 3 [("rock", 1)] "rock" 1 rfl⟩

/-! ## allocate_genre_slots (src/app/core/mmr.py lines 108-138) -/

/-- Adds one occurrence of a genre to a Counter kept as an association list in
first-occurrence order (Python `collections.Counter` iterates keys in
insertion order). -/
def counterAdd (gc : List (String × ℕ)) (g : String) : List (String × ℕ) :=
  match gc with
  | [] => [(g, 1)]
  | (k, v) :: rest => if k = g then (k, v + 1) :: rest else (k, v) :: counterAdd rest g

/-- `Counter(item.get(genre_key, "other") for item in candidates)` over the
already-defaulted genre names. -/
def counterOf (genres : List String) : List (String × ℕ) :=
  genres.foldl counterAdd []

/-- Stable insert for the descending-by-count order of `Counter.most_common`. -/
def insertCountDesc (x : String × ℕ) : List (String × ℕ) → List (String × ℕ)
  | [] => [x]
  | y :: rest => if y.2 ≤ x.2 then x :: y :: rest else y :: insertCountDesc x rest

/-- `Counter.most_common()` with no argument: the entries sorted by count
descending; ties keep insertion order (Python sorting is stable). -/
def mostCommonSort : List (String × ℕ) → List (String × ℕ)
  | [] => []
  | x :: rest => insertCountDesc x (mostCommonSort rest)

/-- The first allocation loop of `allocate_genre_slots`: give each observed
genre `min(min_per_genre, remaining_slots)` slots, breaking as soon as
`remaining_slots <= 0`. Returns the slots dict and the remaining budget. -/
def allocMinSlots (min_per_genre : ℕ) : List (String × ℕ) → ℕ → List (String × ℕ) × ℕ
  | [], remaining => ([], remaining)
  | (g, _) :: rest, remaining =>
    let allocated := min min_per_genre remaining
    let remaining2 := remaining - allocated
    if remaining2 = 0 then ([(g, allocated)], remaining2)
    else
      let p := allocMinSlots min_per_genre rest remaining2
      ((g, allocated) :: p.1, p.2)

/-- `slots[genre] = slots.get(genre, 0) + bonus`: update the first binding of
the key in place, or append a new binding. -/
def slotsGetAdd (slots : List (String × ℕ)) (g : String) (bonus : ℕ) : List (String × ℕ) :=
  match slots with
  | [] => [(g, bonus)]
  | (k, v) :: rest =>
    if k = g then (k, v + bonus) :: rest else (k, v) :: slotsGetAdd rest g bonus

/-- The proportional second loop of `allocate_genre_slots` over
`most_common()`: `bonus = int(remaining_slots * (count / total_items))`, the
floor of the exact product since all quantities are non-negative; breaks as
soon as `remaining_slots <= 0`. -/
def allocBonusSlots (total_items : ℕ) :
    List (String × ℕ) → List (String × ℕ) → ℕ → List (String × ℕ) × ℕ
  | [], slots, remaining => (slots, remaining)
  | (g, count) :: rest, slots, remaining =>
    let bonus := remaining * count / total_items
    let slots2 := slotsGetAdd slots g bonus
    let remaining2 := remaining - bonus
    if remaining2 = 0 then (slots2, remaining2)
    else allocBonusSlots total_items rest slots2 remaining2

/-- `allocate_genre_slots(candidates, total_slots, min_per_genre, genre_key)`:
`candidate_genres` carries each candidate's `item.get(genre_key)` value
(defaulted to "other"). The guaranteed-minimum loop runs first; the
proportional loop runs only when slots remain. -/
def allocate_genre_slots (candidate_genres : List (Option String))
    (total_slots min_per_genre : ℕ) : List (String × ℕ) :=
  let genre_counts := counterOf (candidate_genres.map (fun g => g.getD "other"))
  let total_items := candidate_genres.length
  let p := allocMinSlots min_per_genre genre_counts total_slots
  if p.2 = 0 then p.1
  else (allocBonusSlots total_items (mostCommonSort genre_counts) p.1 p.2).1

/-- The total number of slots held by a slots dict. -/
def sumSlots (slots : List (String × ℕ)) : ℕ := (slots.map Prod.snd).sum

/-! ## Claim C10: allocated slots never exceed the budget -/

/-- The guaranteed-minimum loop conserves the budget: slots handed out plus
the remaining budget equal the incoming budget. -/
theorem allocMinSlots_sum (min_per_genre : ℕ) :
    ∀ (gc : List (String × ℕ)) (remaining : ℕ),
      sumSlots (allocMinSlots min_per_genre gc remaining).1
        + (allocMinSlots min_per_genre gc remaining).2 = remaining := by
  intro gc
  induction gc with
  | nil => intro remaining; simp [allocMinSlots, sumSlots]
  | cons kv rest ih =>
    intro remaining
    obtain ⟨g, v⟩ := kv
    have hle : min min_per_genre remaining ≤ remaining := Nat.min_le_right _ _
    simp only [allocMinSlots]
    split
    · rename_i h0
      simp only [sumSlots, List.map_cons, List.map_nil, List.sum_cons, List.sum_nil]
      omega
    · rename_i h0
      have := ih (remaining - min min_per_genre remaining)
      simp only [sumSlots, List.map_cons, List.sum_cons] at this ⊢
      omega

/-- Adding a bonus to one key adds exactly that bonus to the total. -/
theorem slotsGetAdd_sum (g : String) (bonus : ℕ) :
    ∀ slots : List (String × ℕ), sumSlots (slotsGetAdd slots g bonus) = sumSlots slots + bonus := by
  intro slots
  induction slots with
  | nil => simp [slotsGetAdd, sumSlots]
  | cons kv rest ih =>
    obtain ⟨k, v⟩ := kv
    simp only [slotsGetAdd]
    split
    · simp only [sumSlots, List.map_cons, List.sum_cons]
      omega
    · simp only [sumSlots, List.map_cons, List.sum_cons] at ih ⊢
      omega

/-- The proportional loop hands out at most the remaining budget: every bonus
is the floor of remaining * (count / total) with count ≤ total. -/
theorem allocBonusSlots_sum (total_items : ℕ) :
    ∀ (ordered slots : List (String × ℕ)) (remaining : ℕ),
      (∀ p ∈ ordered, p.2 ≤ total_items) →
      sumSlots (allocBonusSlots total_items ordered slots remaining).1
        ≤ sumSlots slots + remaining := by
  intro ordered
  induction ordered with
  | nil => intro slots remaining _; simp [allocBonusSlots]
  | cons kv rest ih =>
    intro slots remaining hcounts
    obtain ⟨g, count⟩ := kv
    have hcount : count ≤ total_items := hcounts (g, count) (List.mem_cons_self _ _)
    have hbonus : remaining * count / total_items ≤ remaining := by
      rcases Nat.eq_zero_or_pos total_items with h0 | hpos
      · subst h0
        simp
      · calc remaining * count / total_items
            ≤ remaining * total_items / total_items :=
              Nat.div_le_div_right (Nat.mul_le_mul_left _ hcount)
          _ = remaining := Nat.mul_div_cancel remaining hpos
    simp only [allocBonusSlots]
    split
    · rw [slotsGetAdd_sum]
      omega
    · have hrec := ih (slotsGetAdd slots g (remaining * count / total_items))
        (remaining - remaining * count / total_items)
        (fun p hp => hcounts p (List.mem_cons_of_mem _ hp))
      rw [slotsGetAdd_sum] at hrec
      omega

/-- counterAdd adds one to the total count. -/
theorem counterAdd_sum (g : String) :
    ∀ gc : List (String × ℕ), sumSlots (counterAdd gc g) = sumSlots gc + 1 := by
  intro gc
  induction gc with
  | nil => simp [counterAdd, sumSlots]
  | cons kv rest ih =>
    obtain ⟨k, v⟩ := kv
    simp only [counterAdd]
    split
    · simp only [sumSlots, List.map_cons, List.sum_cons]
      omega
    · simp only [sumSlots, List.map_cons, List.sum_cons] at ih ⊢
      omega

/-- The counter counts every candidate exactly once. -/
theorem counterOf_sum (genres : List String) : sumSlots (counterOf genres) = genres.length := by
  suffices h : ∀ (gs : List String) (acc : List (String × ℕ)),
      sumSlots (gs.foldl counterAdd acc) = sumSlots acc + gs.length by
    simpa [counterOf, sumSlots] using h genres []
  intro gs
  induction gs with
  | nil => intro acc; simp
  | cons g rest ih =>
    intro acc
    simp only [List.foldl_cons, List.length_cons, ih, counterAdd_sum]
    omega

/-- Each entry of a counts list is bounded by the total of the list. -/
theorem mem_le_sumSlots : ∀ (l : List (String × ℕ)) (p : String × ℕ), p ∈ l → p.2 ≤ sumSlots l := by
  intro l
  induction l with
  | nil => intro p hp; simp at hp
  | cons kv rest ih =>
    intro p hp
    rcases List.mem_cons.mp hp with rfl | hp
    · simp only [sumSlots, List.map_cons, List.sum_cons]
      omega
    · have := ih p hp
      simp only [sumSlots, List.map_cons, List.sum_cons] at this ⊢
      omega

/-- Membership is preserved by the stable count-descending insert. -/
theorem mem_insertCountDesc (y p : String × ℕ) :
    ∀ l : List (String × ℕ), p ∈ insertCountDesc y l → p = y ∨ p ∈ l := by
  intro l
  induction l with
  | nil => intro hp; simpa [insertCountDesc] using hp
  | cons x rest ih =>
    intro hp
    simp only [insertCountDesc] at hp
    split at hp
    · rcases List.mem_cons.mp hp with rfl | hp
      · exact Or.inl rfl
      · exact Or.inr hp
    · rcases List.mem_cons.mp hp with rfl | hp
      · exact Or.inr (List.mem_cons_self _ _)
      · rcases ih hp with rfl | hp2
        · exact Or.inl rfl
        · exact Or.inr (List.mem_cons_of_mem _ hp2)

/-- most_common is a reordering: membership is preserved. -/
theorem mem_mostCommonSort (p : String × ℕ) :
    ∀ l : List (String × ℕ), p ∈ mostCommonSort l → p ∈ l := by
  intro l
  induction l with
  | nil => intro hp; simp [mostCommonSort] at hp
  | cons x rest ih =>
    intro hp
    rcases mem_insertCountDesc x p (mostCommonSort rest) hp with rfl | hp2
    · exact List.mem_cons_self _ _
    · exact List.mem_cons_of_mem _ (ih hp2)

/-- C10: for every candidate list and every total-slot budget and per-genre
minimum, the slot counts returned by allocate_genre_slots sum to at most
total_slots. -/
theorem allocate_genre_slots_sum_le (candidate_genres : List (Option String))
    (total_slots min_per_genre : ℕ) :
    sumSlots (allocate_genre_slots candidate_genres total_slots min_per_genre)
      ≤ total_slots := by
  rw [allocate_genre_slots]
  have hA := allocMinSlots_sum min_per_genre
    (counterOf (candidate_genres.map (fun g => g.getD "other"))) total_slots
  split
  · omega
  · have hcounts : ∀ p ∈ mostCommonSort
        (counterOf (candidate_genres.map (fun g => g.getD "other"))),
        p.2 ≤ candidate_genres.length := by
      intro p hp
      have hmem := mem_mostCommonSort p _ hp
      have hle := mem_le_sumSlots _ p hmem
      rw [counterOf_sum, List.length_map] at hle
      exact hle
    have hB := allocBonusSlots_sum candidate_genres.length
      (mostCommonSort (counterOf (candidate_genres.map (fun g => g.getD "other"))))
      (allocMinSlots min_per_genre
        (counterOf (candidate_genres.map (fun g => g.getD "other"))) total_slots).1
      (allocMinSlots min_per_genre
        (counterOf (candidate_genres.map (fun g => g.getD "other"))) total_slots).2
      hcounts
    omega
